import Mathlib

/-!
Verification of the MUMPS language-support repository.

The repository ships a Visual Studio Code client (src/extension.ts) around a
Python analysis engine (server/mumps_server.py).  The engine itself is not part
of the checked-in source tree, so its lexer, statement parser, symbol index
builder and naked reference resolver are modelled here from the specification;
the client is embedded from src/extension.ts directly.

All text is modelled as lists of characters and a document as its list of
lines; machine strings of the client are Lean strings.
-/

namespace Mumps

/-- The double quote character, the MUMPS string delimiter. -/
def dq : Char := Char.ofNat 34

/-- The semicolon character, which starts a MUMPS comment. -/
def semi : Char := ';'

/-- Characters allowed in MUMPS identifiers: letters, digits and percent. -/
def identChar (c : Char) : Bool := c.isAlpha || c.isDigit || c == '%'

/-- Longest prefix of characters satisfying p, together with the rest. -/
def spanP (p : Char → Bool) : List Char → List Char × List Char
  | [] => ([], [])
  | c :: t =>
    if p c then
      let s := spanP p t
      (c :: s.1, s.2)
    else ([], c :: t)

theorem spanP_append (p : Char → Bool) : ∀ l : List Char, (spanP p l).1 ++ (spanP p l).2 = l := by
  intro l
  induction l with
  | nil => rfl
  | cons c t ih =>
    by_cases h : p c = true
    · simp [spanP, h, ih]
    · simp [spanP, h]

theorem spanP_all_append (p : Char → Bool) (w : List Char) (c : Char) (r : List Char)
    (hw : ∀ a ∈ w, p a = true) (hc : p c = false) :
    spanP p (w ++ c :: r) = (w, c :: r) := by
  induction w with
  | nil => simp [spanP, hc]
  | cons b t ih =>
    have hb : p b = true := hw b (by simp)
    have ht : ∀ a ∈ t, p a = true := fun a ha => hw a (by simp [ha])
    simp [spanP, hb, ih ht]

/-! ## Lexer

Modelled from the spec: the lexer of the analysis engine, absent from src/,
turns one line into classified tokens.  String literals are double quote
delimited with a doubled quote as escape; an unterminated string literal at end
of line becomes an error token; comments run from a semicolon to end of line;
whitespace runs are kept as separator tokens; the remaining operator set is
kept with its raw text.  The lexer is a character automaton, so it is total and
never aborts.
-/

/-- Kinds of tokens produced by the lexer. -/
inductive TokenKind where
  | ident
  | numberLit
  | stringLit
  | comment
  | dot
  | caret
  | caretDollar
  | dollar
  | space
  | op
  | error
deriving DecidableEq, Repr

/-- A token: a kind together with the raw text of its source span. -/
structure Token where
  kind : TokenKind
  text : List Char
deriving DecidableEq, Repr

/-- The lexer automaton state: either between tokens or inside one. -/
inductive LexMode where
  | base
  | caretP
  | inStr (acc : List Char)
  | strQ (acc : List Char)
  | inCmt (acc : List Char)
  | inIdent (acc : List Char)
  | inNum (acc : List Char)
  | inSpace (acc : List Char)
deriving DecidableEq, Repr

/-- Modelled from the spec: dispatch on one character seen between tokens. -/
def baseStep (toks : List Token) (c : Char) : List Token × LexMode :=
  if c = dq then (toks, LexMode.inStr [c])
  else if c = semi then (toks, LexMode.inCmt [c])
  else if c = '^' then (toks, LexMode.caretP)
  else if c = '$' then (toks ++ [⟨TokenKind.dollar, [c]⟩], LexMode.base)
  else if c = '.' then (toks ++ [⟨TokenKind.dot, [c]⟩], LexMode.base)
  else if c = ' ' then (toks, LexMode.inSpace [c])
  else if c.isAlpha || c == '%' then (toks, LexMode.inIdent [c])
  else if c.isDigit then (toks, LexMode.inNum [c])
  else (toks ++ [⟨TokenKind.op, [c]⟩], LexMode.base)

/-- Modelled from the spec: one step of the lexer automaton. -/
def lexStep (p : List Token × LexMode) (c : Char) : List Token × LexMode :=
  match p.2 with
  | LexMode.base => baseStep p.1 c
  | LexMode.caretP =>
    if c = '$' then (p.1 ++ [⟨TokenKind.caretDollar, ['^', '$']⟩], LexMode.base)
    else baseStep (p.1 ++ [⟨TokenKind.caret, ['^']⟩]) c
  | LexMode.inCmt acc => (p.1, LexMode.inCmt (acc ++ [c]))
  | LexMode.inStr acc =>
    if c = dq then (p.1, LexMode.strQ (acc ++ [c])) else (p.1, LexMode.inStr (acc ++ [c]))
  | LexMode.strQ acc =>
    if c = dq then (p.1, LexMode.inStr (acc ++ [c]))
    else baseStep (p.1 ++ [⟨TokenKind.stringLit, acc⟩]) c
  | LexMode.inSpace acc =>
    if c = ' ' then (p.1, LexMode.inSpace (acc ++ [c]))
    else baseStep (p.1 ++ [⟨TokenKind.space, acc⟩]) c
  | LexMode.inIdent acc =>
    if identChar c then (p.1, LexMode.inIdent (acc ++ [c]))
    else baseStep (p.1 ++ [⟨TokenKind.ident, acc⟩]) c
  | LexMode.inNum acc =>
    if c.isDigit || c == '.' then (p.1, LexMode.inNum (acc ++ [c]))
    else baseStep (p.1 ++ [⟨TokenKind.numberLit, acc⟩]) c

/-- Modelled from the spec: close the pending token at end of line; a pending
string literal still open at end of line becomes an error token. -/
def lexFinish (p : List Token × LexMode) : List Token :=
  match p.2 with
  | LexMode.base => p.1
  | LexMode.caretP => p.1 ++ [⟨TokenKind.caret, ['^']⟩]
  | LexMode.inCmt acc => p.1 ++ [⟨TokenKind.comment, acc⟩]
  | LexMode.inStr acc => p.1 ++ [⟨TokenKind.error, acc⟩]
  | LexMode.strQ acc => p.1 ++ [⟨TokenKind.stringLit, acc⟩]
  | LexMode.inSpace acc => p.1 ++ [⟨TokenKind.space, acc⟩]
  | LexMode.inIdent acc => p.1 ++ [⟨TokenKind.ident, acc⟩]
  | LexMode.inNum acc => p.1 ++ [⟨TokenKind.numberLit, acc⟩]

/-- Modelled from the spec: tokenize one line of source text. -/
def tokenizeLine (l : List Char) : List Token :=
  lexFinish (l.foldl lexStep ([], LexMode.base))

/-- Modelled from the spec: tokenize a document, lexing line by line, so the
lexer always resumes at the next line whatever happened on the previous one. -/
def tokenize (docLines : List (List Char)) : List Token :=
  docLines.flatMap tokenizeLine

/-- Concatenated raw text of a token sequence. -/
def tokensText (ts : List Token) : List Char := ts.flatMap Token.text

/-- Raw text held inside a lexer state. -/
def modeText : LexMode → List Char
  | LexMode.base => []
  | LexMode.caretP => ['^']
  | LexMode.inStr acc => acc
  | LexMode.strQ acc => acc
  | LexMode.inCmt acc => acc
  | LexMode.inIdent acc => acc
  | LexMode.inNum acc => acc
  | LexMode.inSpace acc => acc

theorem tokensText_append (a b : List Token) :
    tokensText (a ++ b) = tokensText a ++ tokensText b := by
  simp [tokensText]

theorem baseStep_text (toks : List Token) (c : Char) :
    tokensText (baseStep toks c).1 ++ modeText (baseStep toks c).2 = tokensText toks ++ [c] := by
  unfold baseStep
  split_ifs <;> simp_all [tokensText, modeText]

theorem tokensText_push (toks : List Token) (k : TokenKind) (txt : List Char) :
    tokensText (toks ++ [⟨k, txt⟩]) = tokensText toks ++ txt := by
  simp [tokensText]

theorem lexStep_text (p : List Token × LexMode) (c : Char) :
    tokensText (lexStep p c).1 ++ modeText (lexStep p c).2 =
      tokensText p.1 ++ modeText p.2 ++ [c] := by
  obtain ⟨toks, m⟩ := p
  cases m with
  | base =>
    have h := baseStep_text toks c
    simp only [modeText, List.append_nil]
    exact h
  | caretP =>
    by_cases h : c = '$'
    · subst h
      simp [lexStep, tokensText_push, modeText]
    · simp only [lexStep, if_neg h]
      rw [baseStep_text]
      simp [tokensText_push, modeText]
  | inStr acc =>
    by_cases h : c = dq <;> simp [lexStep, h, modeText]
  | strQ acc =>
    by_cases h : c = dq
    · simp [lexStep, h, modeText]
    · simp only [lexStep, if_neg h]
      rw [baseStep_text]
      simp [tokensText_push, modeText]
  | inCmt acc => simp [lexStep, modeText]
  | inIdent acc =>
    by_cases h : identChar c = true
    · simp [lexStep, h, modeText]
    · have h2 : identChar c = false := by revert h; cases identChar c <;> simp
      simp only [lexStep, h2, Bool.false_eq_true, if_false]
      rw [baseStep_text]
      simp [tokensText_push, modeText]
  | inNum acc =>
    by_cases h : (c.isDigit || c == '.') = true
    · simp [lexStep, h, modeText]
    · have h2 : (c.isDigit || c == '.') = false := by revert h; cases (c.isDigit || c == '.') <;> simp
      simp only [lexStep, h2, Bool.false_eq_true, if_false]
      rw [baseStep_text]
      simp [tokensText_push, modeText]
  | inSpace acc =>
    by_cases h : c = ' '
    · simp [lexStep, h, modeText]
    · simp only [lexStep, if_neg h]
      rw [baseStep_text]
      simp [tokensText_push, modeText]

theorem foldl_lexStep_text (l : List Char) : ∀ p : List Token × LexMode,
    tokensText (l.foldl lexStep p).1 ++ modeText (l.foldl lexStep p).2 =
      tokensText p.1 ++ modeText p.2 ++ l := by
  induction l with
  | nil => intro p; simp
  | cons c t ih =>
    intro p
    have h := ih (lexStep p c)
    simp only [List.foldl_cons]
    rw [h, lexStep_text]
    simp

theorem lexFinish_text (p : List Token × LexMode) :
    tokensText (lexFinish p) = tokensText p.1 ++ modeText p.2 := by
  obtain ⟨toks, m⟩ := p
  cases m <;> simp [lexFinish, tokensText_append, tokensText, modeText]

/-- The lexer loses no input: the emitted tokens cover the line exactly. -/
theorem tokenizeLine_text (l : List Char) : tokensText (tokenizeLine l) = l := by
  unfold tokenizeLine
  rw [lexFinish_text, foldl_lexStep_text]
  simp [tokensText, modeText]

/-- State of the reference string scanner over a line: inside or outside a
string literal, or dead once a comment begins.  A doubled quote reads as
leaving and immediately re-entering the literal, which is equivalent for
termination purposes. -/
def strScanStep (s : Option Bool) (c : Char) : Option Bool :=
  match s with
  | none => none
  | some true => if c = dq then some false else some true
  | some false => if c = dq then some true else if c = semi then none else some false

/-- A line holds a string literal whose closing quote is missing at end of
line: scanning the line leaves the scanner inside a literal. -/
def hasUnterminatedString (l : List Char) : Bool :=
  (l.foldl strScanStep (some false)).getD false

/-- Map of lexer states onto string scanner states. -/
def modeStrState : LexMode → Option Bool
  | LexMode.inStr _ => some true
  | LexMode.inCmt _ => none
  | _ => some false

theorem baseStep_strState (toks : List Token) (c : Char) :
    modeStrState (baseStep toks c).2 = strScanStep (some false) c := by
  unfold baseStep strScanStep
  split_ifs <;> simp_all [modeStrState]

theorem lexStep_strState (p : List Token × LexMode) (c : Char) :
    modeStrState (lexStep p c).2 = strScanStep (modeStrState p.2) c := by
  obtain ⟨toks, m⟩ := p
  have hdq : identChar dq = false := by decide
  have hsemi : identChar semi = false := by decide
  cases m with
  | base => exact baseStep_strState toks c
  | caretP =>
    by_cases h : c = '$'
    · subst h
      have h1 : ¬ (('$' : Char) = dq) := by decide
      have h2 : ¬ (('$' : Char) = semi) := by decide
      simp [lexStep, modeStrState, strScanStep, h1, h2]
    · simp only [lexStep, if_neg h]
      exact baseStep_strState _ c
  | inStr acc =>
    by_cases h : c = dq <;> simp [lexStep, h, modeStrState, strScanStep]
  | strQ acc =>
    by_cases h : c = dq
    · simp [lexStep, h, modeStrState, strScanStep]
    · simp only [lexStep, if_neg h]
      exact baseStep_strState _ c
  | inCmt acc => simp [lexStep, modeStrState, strScanStep]
  | inIdent acc =>
    by_cases h : identChar c = true
    · have h1 : ¬ (c = dq) := fun hc => by rw [hc, hdq] at h; exact Bool.noConfusion h
      have h2 : ¬ (c = semi) := fun hc => by rw [hc, hsemi] at h; exact Bool.noConfusion h
      simp [lexStep, h, modeStrState, strScanStep, h1, h2]
    · have h2 : identChar c = false := by revert h; cases identChar c <;> simp
      simp only [lexStep, h2, Bool.false_eq_true, if_false]
      exact baseStep_strState _ c
  | inNum acc =>
    by_cases h : (c.isDigit || c == '.') = true
    · have h1 : ¬ (c = dq) := fun hc => by subst hc; revert h; decide
      have h2 : ¬ (c = semi) := fun hc => by subst hc; revert h; decide
      simp [lexStep, h, modeStrState, strScanStep, h1, h2]
    · have h2 : (c.isDigit || c == '.') = false := by revert h; cases (c.isDigit || c == '.') <;> simp
      simp only [lexStep, h2, Bool.false_eq_true, if_false]
      exact baseStep_strState _ c
  | inSpace acc =>
    by_cases h : c = ' '
    · subst h
      have h1 : ¬ ((' ' : Char) = dq) := by decide
      have h2 : ¬ ((' ' : Char) = semi) := by decide
      simp [lexStep, modeStrState, strScanStep, h1, h2]
    · simp only [lexStep, if_neg h]
      exact baseStep_strState _ c

theorem foldl_lexStep_strState (l : List Char) : ∀ p : List Token × LexMode,
    modeStrState ((l.foldl lexStep p).2) = l.foldl strScanStep (modeStrState p.2) := by
  induction l with
  | nil => intro p; rfl
  | cons c t ih =>
    intro p
    simp only [List.foldl_cons]
    rw [ih (lexStep p c), lexStep_strState]

/-- A line left inside a string literal at end of line yields an error token. -/
theorem tokenizeLine_unterminated (l : List Char) (h : hasUnterminatedString l = true) :
    ∃ t ∈ tokenizeLine l, t.kind = TokenKind.error := by
  unfold hasUnterminatedString at h
  have hs := foldl_lexStep_strState l ([], LexMode.base)
  have hbase : modeStrState LexMode.base = some false := rfl
  rw [hbase] at hs
  unfold tokenizeLine
  rcases hfold : l.foldl lexStep ([], LexMode.base) with ⟨toks, m⟩
  rw [hfold] at hs
  cases m with
  | inStr acc =>
    refine ⟨⟨TokenKind.error, acc⟩, ?_, rfl⟩
    simp [lexFinish]
  | base => rw [← hs] at h; simp [modeStrState] at h
  | caretP => rw [← hs] at h; simp [modeStrState] at h
  | strQ acc => rw [← hs] at h; simp [modeStrState] at h
  | inCmt acc => rw [← hs] at h; simp [modeStrState] at h
  | inIdent acc => rw [← hs] at h; simp [modeStrState] at h
  | inNum acc => rw [← hs] at h; simp [modeStrState] at h
  | inSpace acc => rw [← hs] at h; simp [modeStrState] at h

/-- A demonstration line whose string literal is never closed. -/
def unterminatedDemoLine : List Char := ['S', ' ', 'X', '=', dq, 'a', 'b']

/-- C5: tokenize is a total function returning a finite token sequence; it
lexes line by line, so after any malformed line it resumes at the next line;
the emitted tokens of a line cover its text exactly, so lexing never aborts
early; and a line with a string literal whose closing double quote is missing
at end of line yields an error kind token. -/
theorem claim_C5 (docLines : List (List Char)) (l : List Char) :
    tokenize (l :: docLines) = tokenizeLine l ++ tokenize docLines ∧
    tokensText (tokenizeLine l) = l ∧
    (hasUnterminatedString l = true → ∃ t ∈ tokenizeLine l, t.kind = TokenKind.error) := by
  refine ⟨?_, tokenizeLine_text l, tokenizeLine_unterminated l⟩
  simp [tokenize]

/-- C5 witness: the unterminated demonstration line is flagged and produces an
error kind token. -/
theorem claim_C5_witness :
    hasUnterminatedString unterminatedDemoLine = true ∧
    ∃ t ∈ tokenizeLine unterminatedDemoLine, t.kind = TokenKind.error :=
  ⟨by decide, (claim_C5 [] unterminatedDemoLine).2.2 (by decide)⟩

/-! ## Statement parser

Modelled from the spec: the statement parser of the analysis engine, absent
from src/, turns one line into at most one statement: leading dots give the
nesting level, a leading identifier that is not a command keyword is a label,
the command token is canonicalized through a fixed abbreviation table, a colon
right after the command introduces a postcondition, and the rest of the line,
less any trailing comment, splits into comma separated arguments respecting
parentheses and string literals.
-/

/-- The diagnostic taxonomy of the analysis engine. -/
inductive DiagKind where
  | lexError
  | syntaxError
  | unknownSymbol
  | unresolvedNakedReference
  | ambiguousLabel
deriving DecidableEq, Repr

/-- A diagnostic recorded by the pipeline. -/
structure Diagnostic where
  kind : DiagKind
deriving DecidableEq, Repr

/-- Modelled from the spec: one character of the trailing comment stripper.
State: comment reached yet, inside a string literal, text kept so far. -/
def stripCommentStep (s : Bool × Bool × List Char) (c : Char) : Bool × Bool × List Char :=
  if s.1 then s
  else if s.2.1 then (false, if c = dq then false else true, s.2.2 ++ [c])
  else if c = dq then (false, true, s.2.2 ++ [c])
  else if c = semi then (true, false, s.2.2)
  else (false, false, s.2.2 ++ [c])

/-- Modelled from the spec: statement text up to, but not including, a
trailing comment, a semicolon outside any string literal. -/
def stripComment (l : List Char) : List Char :=
  (l.foldl stripCommentStep (false, false, [])).2.2

/-- Modelled from the spec: one character of the argument splitter.  State:
inside a string literal, parenthesis depth, current argument, finished
arguments. -/
def splitArgsStep (s : Bool × Nat × List Char × List (List Char)) (c : Char) :
    Bool × Nat × List Char × List (List Char) :=
  if s.1 then (if c = dq then false else true, s.2.1, s.2.2.1 ++ [c], s.2.2.2)
  else if c = dq then (true, s.2.1, s.2.2.1 ++ [c], s.2.2.2)
  else if c = '(' then (false, s.2.1 + 1, s.2.2.1 ++ [c], s.2.2.2)
  else if c = ')' then (false, s.2.1 - 1, s.2.2.1 ++ [c], s.2.2.2)
  else if c = ',' then
    (if s.2.1 = 0 then (false, 0, [], s.2.2.2 ++ [s.2.2.1])
     else (false, s.2.1, s.2.2.1 ++ [c], s.2.2.2))
  else (false, s.2.1, s.2.2.1 ++ [c], s.2.2.2)

/-- Modelled from the spec: split text at commas at parenthesis depth zero and
outside string literals, so commas inside subscripts or strings do not
separate arguments. -/
def splitArgs (l : List Char) : List (List Char) :=
  let s := l.foldl splitArgsStep (false, 0, [], [])
  s.2.2.2 ++ [s.2.2.1]

/-- Modelled from the spec: count leading dot tokens, skipping spaces; each
dot is one nesting level; returns the level and the rest of the line. -/
def countDots : List Char → Nat × List Char
  | [] => (0, [])
  | c :: t =>
    if c = ' ' then countDots t
    else if c = '.' then
      let s := countDots t
      (s.1 + 1, s.2)
    else (0, c :: t)

/-- Modelled from the spec: the fixed command abbreviation table. -/
def abbreviationTable : List (List Char × List Char) :=
  [(['S'], ['S', 'E', 'T']),
   (['D'], ['D', 'O']),
   (['Q'], ['Q', 'U', 'I', 'T']),
   (['I'], ['I', 'F']),
   (['F'], ['F', 'O', 'R']),
   (['W'], ['W', 'R', 'I', 'T', 'E']),
   (['K'], ['K', 'I', 'L', 'L']),
   (['N'], ['N', 'E', 'W']),
   (['M'], ['M', 'E', 'R', 'G', 'E']),
   (['L'], ['L', 'O', 'C', 'K']),
   (['X'], ['X', 'E', 'C', 'U', 'T', 'E']),
   (['G'], ['G', 'O', 'T', 'O']),
   (['T', 'S'], ['T', 'S', 'T', 'A', 'R', 'T']),
   (['T', 'C'], ['T', 'C', 'O', 'M', 'M', 'I', 'T'])]

/-- Modelled from the spec: canonicalize a command token through the table;
full command names and unknown tokens pass through unchanged. -/
def canonicalize (w : List Char) : List Char :=
  match abbreviationTable.find? (fun q => q.1 == w) with
  | some q => q.2
  | none => w

/-- A token that is a known command keyword, abbreviated or in full. -/
def isCommandWord (w : List Char) : Bool :=
  abbreviationTable.any (fun q => q.1 == w) || abbreviationTable.any (fun q => q.2 == w)

/-- Modelled from the spec: a parsed statement: nesting level, optional label,
canonical command together with the original command token span, optional
postcondition, and comma separated argument expressions. -/
structure Statement where
  level : Nat
  label : Option (List Char)
  command : List Char
  commandToken : List Char
  postcondition : Option (List Char)
  args : List (List Char)
deriving DecidableEq, Repr

/-- Modelled from the spec: parse the command part of a line, after any label
and leading dots: read the command token, canonicalize it, split off a
postcondition joined by a colon, then split the remaining text, less any
trailing comment, into arguments. -/
def parseCommandPart (lvl : Nat) (lab : Option (List Char)) (l : List Char) : Statement :=
  let s := spanP (fun c => c.isAlpha) l
  let pcSplit : Option (List Char) × List Char :=
    match s.2 with
    | c :: t =>
      if c = ':' then
        let q := spanP (fun a => a != ' ') t
        (some q.1, q.2)
      else (none, c :: t)
    | [] => (none, [])
  let argText := stripComment (pcSplit.2.drop 1)
  { level := lvl, label := lab, command := canonicalize s.1, commandToken := s.1,
    postcondition := pcSplit.1,
    args := if argText = [] then [] else splitArgs argText }

/-- Modelled from the spec: skip a parenthesized label parameter list. -/
def dropParamList (l : List Char) : List Char :=
  match l with
  | '(' :: t => (t.dropWhile (fun c => c != ')')).drop 1
  | other => other

/-- Modelled from the spec: parse one line.  A leading identifier that is not
a command keyword is a label, possible only at column zero, hence at level
zero; then leading dots give the nesting level and the command part follows.
Blank and comment-only lines yield no statement. -/
def parseLine (l : List Char) : Option Statement :=
  let startsIdent :=
    match l.head? with
    | some c => identChar c
    | none => false
  if startsIdent then
    let s := spanP identChar l
    if isCommandWord s.1 then some (parseCommandPart 0 none l)
    else
      let afterLab := dropParamList s.2
      let d := countDots afterLab
      if d.2 = [] ∨ d.2.head? = some semi then
        some { level := d.1, label := some s.1, command := [], commandToken := [],
               postcondition := none, args := [] }
      else some (parseCommandPart d.1 (some s.1) d.2)
  else
    let d := countDots l
    if d.2 = [] ∨ d.2.head? = some semi then none
    else some (parseCommandPart d.1 none d.2)

/-- Modelled from the spec: parse a document line by line. -/
def parseDocument (docLines : List (List Char)) : List Statement :=
  docLines.filterMap parseLine

theorem abbreviationTable_facts :
    ∀ q ∈ abbreviationTable,
      q.1 ≠ [] ∧ q.2 ≠ [] ∧
      (∀ a ∈ q.1, identChar a = true ∧ a.isAlpha = true) ∧
      (∀ a ∈ q.2, identChar a = true ∧ a.isAlpha = true) ∧
      isCommandWord q.1 = true ∧ isCommandWord q.2 = true ∧
      canonicalize q.1 = q.2 ∧ canonicalize q.2 = q.2 := by decide

/-- Parsing a command keyword followed by one space and argument text yields a
statement at level zero, without label, with the canonicalized command, the
keyword as its recorded token span and the split arguments. -/
theorem parseLine_command (w : List Char) (argText : List Char)
    (hne : w ≠ []) (hw : ∀ a ∈ w, identChar a = true ∧ a.isAlpha = true)
    (hcw : isCommandWord w = true) :
    parseLine (w ++ ' ' :: argText) =
      some { level := 0, label := none, command := canonicalize w, commandToken := w,
             postcondition := none,
             args := if stripComment argText = [] then [] else splitArgs (stripComment argText) } := by
  obtain ⟨c, t, rfl⟩ := List.exists_cons_of_ne_nil hne
  have hc : identChar c = true := (hw c (by simp)).1
  have hspace : identChar ' ' = false := by decide
  have hspan1 : spanP identChar ((c :: t) ++ ' ' :: argText) = (c :: t, ' ' :: argText) :=
    spanP_all_append identChar (c :: t) ' ' argText (fun a ha => (hw a ha).1) hspace
  have hspace2 : (' ' : Char).isAlpha = false := by decide
  have hspan2 : spanP (fun a => a.isAlpha) ((c :: t) ++ ' ' :: argText) =
      (c :: t, ' ' :: argText) :=
    spanP_all_append (fun a => a.isAlpha) (c :: t) ' ' argText (fun a ha => (hw a ha).2) hspace2
  have hcolon : ¬ ((' ' : Char) = ':') := by decide
  simp only [List.cons_append] at hspan1 hspan2
  simp [parseLine, hc, hspan1, hcw, parseCommandPart, hspan2, hcolon]

/-- C4: a command written with its fixed-table abbreviation parses to the same
statement as the command written in full, apart from the recorded command
token span: for every table pair and every argument text, both lines parse,
their canonical commands are both the full form, and their levels, labels,
postconditions and parsed argument sequences agree; in particular S X=1 and
SET X=1 produce statements with identical canonical command and identical
argument parse. -/
theorem claim_C4 (q : List Char × List Char) (hq : q ∈ abbreviationTable)
    (argText : List Char) :
    ∃ s1 s2 : Statement,
      parseLine (q.1 ++ ' ' :: argText) = some s1 ∧
      parseLine (q.2 ++ ' ' :: argText) = some s2 ∧
      s1.command = q.2 ∧ s2.command = q.2 ∧ s1.args = s2.args ∧
      s1.level = s2.level ∧ s1.label = s2.label ∧ s1.postcondition = s2.postcondition ∧
      s1.commandToken = q.1 ∧ s2.commandToken = q.2 := by
  obtain ⟨h1, h2, h3, h4, h5, h6, h7, h8⟩ := abbreviationTable_facts q hq
  refine ⟨_, _, parseLine_command q.1 argText h1 h3 h5,
    parseLine_command q.2 argText h2 h4 h6, ?_, ?_, ?_, ?_, ?_, ?_, ?_, ?_⟩ <;>
    simp [h7, h8]

/-- C4 witness: S X=1 and SET X=1 parse to statements with the same canonical
command SET and the same argument parse. -/
theorem claim_C4_witness :
    ∃ s1 s2 : Statement,
      parseLine (['S'] ++ ' ' :: ['X', '=', '1']) = some s1 ∧
      parseLine (['S', 'E', 'T'] ++ ' ' :: ['X', '=', '1']) = some s2 ∧
      s1.command = ['S', 'E', 'T'] ∧ s2.command = ['S', 'E', 'T'] ∧ s1.args = s2.args ∧
      s1.level = s2.level ∧ s1.label = s2.label ∧ s1.postcondition = s2.postcondition ∧
      s1.commandToken = ['S'] ∧ s2.commandToken = ['S', 'E', 'T'] :=
  claim_C4 ⟨['S'], ['S', 'E', 'T']⟩ (by decide) ['X', '=', '1']

/-! ## Nesting level consistency -/

/-- The virtual context preceding the first statement of a document: top
level, no block opened. -/
def startContext : Statement :=
  { level := 0, label := none, command := [], commandToken := [],
    postcondition := none, args := [] }

/-- Modelled from the spec: the block opening command forms after which the
next statement may nest one level deeper. -/
def isBlockOpener (s : Statement) : Bool :=
  s.command == ['D', 'O'] || s.command == ['F', 'O', 'R'] || s.command == ['I', 'F']

/-- Modelled from the spec: the nesting level allowed for a statement after
its predecessor: any shallower or equal level, or exactly one deeper and only
after a block opener. -/
def levelAllowed (a b : Statement) : Bool :=
  decide (b.level ≤ a.level) || (b.level == a.level + 1 && isBlockOpener a)

/-- Modelled from the spec: walk the statements in order and report a syntax
error diagnostic for every statement whose nesting level jumps with no
matching opener; nothing is silently accepted. -/
def nestingCheck (prev : Statement) : List Statement → List Diagnostic
  | [] => []
  | s :: rest =>
    (if levelAllowed prev s then [] else [⟨DiagKind.syntaxError⟩]) ++ nestingCheck s rest

theorem nestingCheck_eq_nil_iff (prev : Statement) (l : List Statement) :
    nestingCheck prev l = [] ↔ List.Chain (fun a b => levelAllowed a b = true) prev l := by
  induction l generalizing prev with
  | nil => simp [nestingCheck]
  | cons s rest ih =>
    by_cases h : levelAllowed prev s = true
    · simp [nestingCheck, h, ih, List.chain_cons]
    · simp [nestingCheck, h, List.chain_cons]

theorem nestingCheck_kinds (prev : Statement) (l : List Statement) :
    ∀ d ∈ nestingCheck prev l, d.kind = DiagKind.syntaxError := by
  induction l generalizing prev with
  | nil => simp [nestingCheck]
  | cons s rest ih =>
    intro d hd
    by_cases h : levelAllowed prev s = true
    · rw [nestingCheck] at hd
      simp only [h, if_true, List.nil_append] at hd
      exact ih s d hd
    · rw [nestingCheck] at hd
      simp only [h, if_false, Bool.false_eq_true, List.singleton_append, List.mem_cons] at hd
      rcases hd with rfl | hd
      · rfl
      · exact ih s d hd

theorem chain_level_le (prev : Statement) (l : List Statement)
    (h : List.Chain (fun a b => levelAllowed a b = true) prev l) :
    List.Chain (fun a b => b ≤ a + 1) prev.level (l.map Statement.level) := by
  induction l generalizing prev with
  | nil => simp
  | cons s rest ih =>
    rw [List.chain_cons] at h
    rcases h with ⟨h1, h2⟩
    rw [List.map_cons, List.chain_cons]
    refine ⟨?_, ih s h2⟩
    simp [levelAllowed] at h1
    rcases h1 with h | ⟨h, _⟩ <;> omega

theorem chain_seen (v : Nat) :
    ∀ (ls : List Nat) (p : Nat), List.Chain (fun a b => b ≤ a + 1) p ls →
      ∀ i (h : i < ls.length), p < v → v ≤ ls.get ⟨i, h⟩ → v ∈ ls.take (i + 1) := by
  intro ls
  induction ls with
  | nil => intro p _ i h; simp at h
  | cons a t ih =>
    intro p hch i hi hpv hvi
    rw [List.chain_cons] at hch
    rcases hch with ⟨hle, hch⟩
    cases i with
    | zero =>
      have hva : v = a := by
        have := hvi
        simp only [List.get] at this
        omega
      simp [hva]
    | succ j =>
      have hj : j < t.length := by simpa using hi
      have hvj : v ≤ t.get ⟨j, hj⟩ := by simpa using hvi
      by_cases hva : v = a
      · subst hva
        simp [List.take_succ_cons]
      · have hav : a < v := by omega
        have hmem := ih a hch j hj hav hvj
        rw [List.take_succ_cons]
        exact List.mem_cons_of_mem a hmem

/-- C6: a statement sequence passes the nesting check with no diagnostics
exactly when every statement is at most one level deeper than its predecessor
and deeper only after a block opening DO, FOR or IF form; every diagnostic the
check emits is a syntax error, so a level jump with no matching opener is
reported and never silently accepted; and on an accepted sequence every
decrease of level returns to a previously seen level, since every level below
the current one already occurs among the levels seen so far. -/
theorem claim_C6 (stmts : List Statement) :
    (nestingCheck startContext stmts = [] ↔
      List.Chain (fun a b => levelAllowed a b = true) startContext stmts) ∧
    (∀ d ∈ nestingCheck startContext stmts, d.kind = DiagKind.syntaxError) ∧
    (nestingCheck startContext stmts = [] →
      ∀ i (h : i < stmts.length) (v : Nat), v ≤ (stmts.get ⟨i, h⟩).level →
        v ∈ (startContext :: stmts.take (i + 1)).map Statement.level) := by
  refine ⟨nestingCheck_eq_nil_iff _ _, nestingCheck_kinds _ _, ?_⟩
  intro hnil i h v hv
  have hch := (nestingCheck_eq_nil_iff _ _).1 hnil
  have hlev := chain_level_le _ _ hch
  by_cases hv0 : v = 0
  · subst hv0
    simp [startContext]
  · have hpv : (0 : Nat) < v := Nat.pos_of_ne_zero hv0
    have hi : i < (stmts.map Statement.level).length := by simpa using h
    have hvle : v ≤ (stmts.map Statement.level).get ⟨i, hi⟩ := by
      rw [List.get_map]
      exact hv
    have hmem := chain_seen v (stmts.map Statement.level) startContext.level hlev i hi
      (by simpa [startContext] using hpv) hvle
    rw [List.map_cons]
    refine List.mem_cons_of_mem _ ?_
    rw [List.map_take]
    exact hmem

/-- A block opening statement at level zero, for the nesting witness. -/
def demoOpenStmt : Statement :=
  { level := 0, label := none, command := ['D', 'O'], commandToken := ['D'],
    postcondition := none, args := [] }

/-- A nested statement at level one, for the nesting witness. -/
def demoInnerStmt : Statement :=
  { level := 1, label := none, command := ['Q', 'U', 'I', 'T'], commandToken := ['Q'],
    postcondition := none, args := [] }

/-- C6 witness: a clean DO block at levels zero and one passes the check and
level zero is among the levels seen up to the nested statement. -/
theorem claim_C6_witness :
    (0 : Nat) ∈ (startContext :: ([demoOpenStmt, demoInnerStmt].take 2)).map Statement.level :=
  (claim_C6 [demoOpenStmt, demoInnerStmt]).2.2 (by decide) 1 (by decide) 0 (by decide)

/-! ## Global references and the naked reference resolver -/

/-- Modelled from the spec: a global variable reference: global name, empty
for a naked reference, subscript expressions kept as opaque text, and the flag
recording whether the reference was naked. -/
structure GlobalRef where
  name : List Char
  subscripts : List (List Char)
  naked : Bool
deriving DecidableEq, Repr

/-- The reference scanner automaton state over one argument expression. -/
inductive RefMode where
  | norm
  | instr
  | caretSeen (nm : List Char)
  | subs (nm : List Char) (acc : List Char) (depth : Nat) (instr : Bool)
deriving DecidableEq, Repr

/-- Modelled from the spec: dispatch on a character outside any reference. -/
def refNormStep (refs : List GlobalRef) (c : Char) : List GlobalRef × RefMode :=
  if c = dq then (refs, RefMode.instr)
  else if c = '^' then (refs, RefMode.caretSeen [])
  else (refs, RefMode.norm)

/-- Modelled from the spec: one step of the reference scanner, which finds the
global references, fully qualified or naked, inside argument text, skipping
string literals and the caret dollar structured system variable sigil, and
reading a parenthesized subscript list with nesting and strings respected. -/
def refStep (p : List GlobalRef × RefMode) (c : Char) : List GlobalRef × RefMode :=
  match p.2 with
  | RefMode.norm => refNormStep p.1 c
  | RefMode.instr => if c = dq then (p.1, RefMode.norm) else (p.1, RefMode.instr)
  | RefMode.caretSeen nm =>
    if identChar c then (p.1, RefMode.caretSeen (nm ++ [c]))
    else if c = '(' then (p.1, RefMode.subs nm [] 1 false)
    else if c = '$' ∧ nm = [] then (p.1, RefMode.norm)
    else if nm = [] then refNormStep p.1 c
    else refNormStep (p.1 ++ [⟨nm, [], false⟩]) c
  | RefMode.subs nm acc depth instr =>
    if instr then
      (p.1, RefMode.subs nm (acc ++ [c]) depth (if c = dq then false else true))
    else if c = dq then (p.1, RefMode.subs nm (acc ++ [c]) depth true)
    else if c = '(' then (p.1, RefMode.subs nm (acc ++ [c]) (depth + 1) false)
    else if c = ')' then
      (if depth = 1 then (p.1 ++ [⟨nm, splitArgs acc, nm.isEmpty⟩], RefMode.norm)
       else (p.1, RefMode.subs nm (acc ++ [c]) (depth - 1) false))
    else (p.1, RefMode.subs nm (acc ++ [c]) depth false)

/-- Modelled from the spec: close a pending reference at end of text. -/
def refFinish (p : List GlobalRef × RefMode) : List GlobalRef :=
  match p.2 with
  | RefMode.caretSeen nm => if nm = [] then p.1 else p.1 ++ [⟨nm, [], false⟩]
  | RefMode.subs nm acc _ _ => p.1 ++ [⟨nm, splitArgs acc, nm.isEmpty⟩]
  | _ => p.1

/-- Modelled from the spec: all global references inside one argument text. -/
def extractRefs (l : List Char) : List GlobalRef :=
  refFinish (l.foldl refStep ([], RefMode.norm))

/-- Modelled from the spec: the running naked reference context: the name and
subscript list of the last explicit global reference of the routine. -/
structure NakedBase where
  name : List Char
  subscriptContext : List (List Char)
deriving DecidableEq, Repr

/-- Modelled from the spec: what the resolver scans in textual order: level
zero labels, which are routine boundaries, and global references. -/
inductive ScanItem where
  | labelLine (nm : List Char)
  | globalRef (g : GlobalRef)
deriving DecidableEq, Repr

/-- Outcome of resolving one global reference. -/
inductive ResolveOutcome where
  | resolved (nm : List Char) (subscripts : List (List Char)) (wasNaked : Bool)
  | unresolved
deriving DecidableEq, Repr

/-- Modelled from the spec: one resolver step.  A level zero label resets the
context; a fully qualified reference resolves to itself and becomes the new
context; a naked reference resolves against the context, inheriting its
subscript list with the last level dropped and appending its own subscripts,
or is unresolved when no context exists in the routine. -/
def resolveStep (base : Option NakedBase) (i : ScanItem) :
    Option NakedBase × Option ResolveOutcome :=
  match i with
  | ScanItem.labelLine _ => (none, none)
  | ScanItem.globalRef g =>
    if g.naked then
      match base with
      | none => (none, some ResolveOutcome.unresolved)
      | some b =>
        (some b, some (ResolveOutcome.resolved b.name
          (b.subscriptContext.dropLast ++ g.subscripts) true))
    else
      (some ⟨g.name, g.subscripts⟩, some (ResolveOutcome.resolved g.name g.subscripts false))

/-- The resolver context after scanning a list of items. -/
def stateAfter (base : Option NakedBase) (items : List ScanItem) : Option NakedBase :=
  items.foldl (fun b i => (resolveStep b i).1) base

/-- Modelled from the spec: the full left to right resolver pass, returning
one outcome per global reference in source order. -/
def resolvePass (base : Option NakedBase) : List ScanItem → List ResolveOutcome
  | [] => []
  | i :: rest => (resolveStep base i).2.toList ++ resolvePass (resolveStep base i).1 rest

/-- The diagnostics arising from resolver outcomes. -/
def outcomeDiagnostics (outs : List ResolveOutcome) : List Diagnostic :=
  outs.filterMap (fun o =>
    match o with
    | ResolveOutcome.unresolved => some ⟨DiagKind.unresolvedNakedReference⟩
    | _ => none)

/-- An item that is a fully qualified global reference. -/
def isExplicitItem (i : ScanItem) : Bool :=
  match i with
  | ScanItem.globalRef g => !g.naked
  | ScanItem.labelLine _ => false

/-- An item that leaves the resolver context unchanged: a naked reference. -/
def preservesBase (i : ScanItem) : Bool :=
  match i with
  | ScanItem.globalRef g => g.naked
  | ScanItem.labelLine _ => false

theorem stateAfter_cons (base : Option NakedBase) (i : ScanItem) (t : List ScanItem) :
    stateAfter base (i :: t) = stateAfter (resolveStep base i).1 t := rfl

theorem resolvePass_append (base : Option NakedBase) (xs ys : List ScanItem) :
    resolvePass base (xs ++ ys) =
      resolvePass base xs ++ resolvePass (stateAfter base xs) ys := by
  induction xs generalizing base with
  | nil => simp [resolvePass, stateAfter]
  | cons i t ih =>
    rw [List.cons_append, resolvePass, resolvePass, stateAfter_cons, ih, List.append_assoc]

theorem stateAfter_preserved (b : NakedBase) (items : List ScanItem)
    (h : ∀ i ∈ items, preservesBase i = true) :
    stateAfter (some b) items = some b := by
  induction items with
  | nil => rfl
  | cons i t ih =>
    have hi := h i (by simp)
    have ht : ∀ j ∈ t, preservesBase j = true := fun j hj => h j (by simp [hj])
    rw [stateAfter_cons]
    have hstep : (resolveStep (some b) i).1 = some b := by
      cases i with
      | labelLine nm => simp [preservesBase] at hi
      | globalRef g =>
        simp [preservesBase] at hi
        simp [resolveStep, hi]
    rw [hstep]
    exact ih ht

theorem stateAfter_none (items : List ScanItem)
    (h : ∀ i ∈ items, isExplicitItem i = false) :
    stateAfter none items = none := by
  induction items with
  | nil => rfl
  | cons i t ih =>
    have hi := h i (by simp)
    have ht : ∀ j ∈ t, isExplicitItem j = false := fun j hj => h j (by simp [hj])
    rw [stateAfter_cons]
    have hstep : (resolveStep none i).1 = none := by
      cases i with
      | labelLine nm => rfl
      | globalRef g =>
        simp [isExplicitItem] at hi
        simp [resolveStep, hi]
    rw [hstep]
    exact ih ht

theorem getLast_append_singleton {α : Type} (l : List α) (a : α) :
    (l ++ [a]).getLast? = some a := by
  rw [List.getLast?_append_cons]
  rfl

/-- C1 (amended): after a fully qualified global reference, with only context
preserving items in between, a naked reference resolves to the last explicit
global's name, and its effective subscripts are the last explicit reference's
subscript list truncated by its final level, that is all leading levels, with
the naked reference's own subscripts appended. -/
theorem claim_C1 (base : Option NakedBase) (nm : List Char)
    (psubs : List (List Char)) (mid : List ScanItem) (nsubs : List (List Char))
    (hmid : ∀ i ∈ mid, preservesBase i = true) :
    (resolvePass base (ScanItem.globalRef ⟨nm, psubs, false⟩ ::
        (mid ++ [ScanItem.globalRef ⟨[], nsubs, true⟩]))).getLast? =
      some (ResolveOutcome.resolved nm (psubs.dropLast ++ nsubs) true) := by
  have hstep : resolveStep base (ScanItem.globalRef ⟨nm, psubs, false⟩) =
      (some ⟨nm, psubs⟩, some (ResolveOutcome.resolved nm psubs false)) := by
    simp [resolveStep]
  rw [resolvePass, hstep, resolvePass_append, stateAfter_preserved _ _ hmid]
  have hlast : resolvePass (some ⟨nm, psubs⟩) [ScanItem.globalRef ⟨[], nsubs, true⟩] =
      [ResolveOutcome.resolved nm (psubs.dropLast ++ nsubs) true] := by
    simp [resolvePass, resolveStep]
  rw [hlast, ← List.append_assoc]
  exact getLast_append_singleton _ _

/-- Characters of the PATIENT example. -/
def patName : List Char := ['P', 'A', 'T', 'I', 'E', 'N', 'T']

/-- The subscript text 123 of the example. -/
def sub123 : List Char := ['1', '2', '3']

/-- The quoted subscript text NAME of the example. -/
def subNAME : List Char := [dq, 'N', 'A', 'M', 'E', dq]

/-- The quoted subscript text DOB of the example. -/
def subDOB : List Char := [dq, 'D', 'O', 'B', dq]

/-- C1 witness: the spec example: the naked reference with subscript DOB after
the explicit reference PATIENT(123, NAME) resolves to PATIENT(123, DOB). -/
theorem claim_C1_witness :
    (resolvePass none (ScanItem.globalRef ⟨patName, [sub123, subNAME], false⟩ ::
        ([] ++ [ScanItem.globalRef ⟨[], [subDOB], true⟩]))).getLast? =
      some (ResolveOutcome.resolved patName ([sub123, subNAME].dropLast ++ [subDOB]) true) ∧
    [sub123, subNAME].dropLast ++ [subDOB] = [sub123, subDOB] :=
  ⟨claim_C1 none patName [sub123, subNAME] [] [subDOB] (by simp), by decide⟩

/-- C1 counterexample: on the spec example the resolver yields the effective
subscripts 123, DOB, but the claim formula, the last explicit subscript list
truncated to one level less than the naked reference's own subscript count,
which here is zero levels, predicts the effective subscripts DOB alone; the
two disagree, so the claim as stated fails at its own example. -/
theorem claim_C1_counterexample :
    resolvePass none [ScanItem.globalRef ⟨patName, [sub123, subNAME], false⟩,
        ScanItem.globalRef ⟨[], [subDOB], true⟩] =
      [ResolveOutcome.resolved patName [sub123, subNAME] false,
       ResolveOutcome.resolved patName [sub123, subDOB] true] ∧
    ¬ ([sub123, subDOB] = [sub123, subNAME].take ([subDOB].length - 1) ++ [subDOB]) := by
  decide

/-- C2: a naked reference that is the first global reference after a level
zero label, with no fully qualified reference in between, is unresolved: the
resolver yields an unresolved outcome, hence an UnresolvedNakedReference
diagnostic, rather than crashing or resolving it, whatever naked context an
earlier routine of the document had established. -/
theorem claim_C2 (base : Option NakedBase) (rn : List Char) (mid : List ScanItem)
    (nsubs : List (List Char)) (hmid : ∀ i ∈ mid, isExplicitItem i = false) :
    (resolvePass base (ScanItem.labelLine rn ::
        (mid ++ [ScanItem.globalRef ⟨[], nsubs, true⟩]))).getLast? =
      some ResolveOutcome.unresolved ∧
    (⟨DiagKind.unresolvedNakedReference⟩ : Diagnostic) ∈ outcomeDiagnostics
      (resolvePass base (ScanItem.labelLine rn ::
        (mid ++ [ScanItem.globalRef ⟨[], nsubs, true⟩]))) := by
  have hform : resolvePass base (ScanItem.labelLine rn ::
      (mid ++ [ScanItem.globalRef ⟨[], nsubs, true⟩])) =
      resolvePass none mid ++ [ResolveOutcome.unresolved] := by
    rw [resolvePass]
    have h1 : resolveStep base (ScanItem.labelLine rn) = (none, none) := rfl
    rw [h1, resolvePass_append, stateAfter_none _ hmid]
    simp [resolvePass, resolveStep]
  rw [hform]
  refine ⟨getLast_append_singleton _ _, ?_⟩
  simp [outcomeDiagnostics]

/-- The label SAVE of the scope reset example. -/
def saveLabel : List Char := ['S', 'A', 'V', 'E']

/-- C2 witness: with a naked context established by an earlier routine, a
naked reference right after the label SAVE is still unresolved and reported. -/
theorem claim_C2_witness :
    (resolvePass (some ⟨patName, [sub123]⟩) (ScanItem.labelLine saveLabel ::
        ([] ++ [ScanItem.globalRef ⟨[], [subDOB], true⟩]))).getLast? =
      some ResolveOutcome.unresolved ∧
    (⟨DiagKind.unresolvedNakedReference⟩ : Diagnostic) ∈ outcomeDiagnostics
      (resolvePass (some ⟨patName, [sub123]⟩) (ScanItem.labelLine saveLabel ::
        ([] ++ [ScanItem.globalRef ⟨[], [subDOB], true⟩]))) :=
  claim_C2 (some ⟨patName, [sub123]⟩) saveLabel [] [subDOB] (by simp)

/-! ## Symbol index and analyze -/

/-- Modelled from the spec: the core configuration, the maximum global
subscript depth retained by the index. -/
structure MumpsConfig where
  maxGlobalDepth : Nat
deriving DecidableEq, Repr

/-- An indexed global: name, retained subscript record, observed depth. -/
structure GlobalEntry where
  name : List Char
  retained : List (List Char)
  depth : Nat
deriving DecidableEq, Repr

/-- Modelled from the spec: depth limiting: all subscripts are parsed and the
observed depth counted, but only the first maxGlobalDepth subscript levels are
retained in the index. -/
def mkGlobalEntry (maxDepth : Nat) (nm : List Char) (subs : List (List Char)) : GlobalEntry :=
  { name := nm, retained := subs.take maxDepth, depth := subs.length }

/-- Scan items of a parsed document: level zero labels and global references
of argument expressions, in source order. -/
def scanItemsOf (stmts : List Statement) : List ScanItem :=
  stmts.flatMap (fun s =>
    (match s.label with
     | some nm => if s.level = 0 then [ScanItem.labelLine nm] else []
     | none => []) ++
    (s.args.flatMap extractRefs).map ScanItem.globalRef)

/-- The index entries for the resolved references of a document. -/
def outcomeEntries (maxDepth : Nat) (outs : List ResolveOutcome) : List GlobalEntry :=
  outs.filterMap (fun o =>
    match o with
    | ResolveOutcome.resolved nm subs _ => some (mkGlobalEntry maxDepth nm subs)
    | ResolveOutcome.unresolved => none)

/-- Modelled from the spec: the symbol index of one document: labels in source
order, indexed globals and diagnostics. -/
structure SymbolIndex where
  labels : List (List Char)
  globals : List GlobalEntry
  diagnostics : List Diagnostic
deriving DecidableEq, Repr

/-- Modelled from the spec: build the index through the full pipeline: parse
the document, check nesting, extract and resolve global references, and
retain subscripts up to the configured depth. -/
def buildIndex (cfg : MumpsConfig) (docLines : List (List Char)) : SymbolIndex :=
  let stmts := parseDocument docLines
  let outs := resolvePass none (scanItemsOf stmts)
  { labels := stmts.filterMap (fun s => if s.level = 0 then s.label else none),
    globals := outcomeEntries cfg.maxGlobalDepth outs,
    diagnostics := nestingCheck startContext stmts ++ outcomeDiagnostics outs }

/-- An analyzed snapshot: the version it was produced at and its index. -/
structure Snapshot where
  version : Nat
  index : SymbolIndex
deriving DecidableEq, Repr

/-- Modelled from the spec: analyze reruns the full pipeline over the full
text; the version number is recorded on the snapshot and plays no part in the
analysis itself. -/
def analyze (cfg : MumpsConfig) (docLines : List (List Char)) (version : Nat) : Snapshot :=
  { version := version, index := buildIndex cfg docLines }

/-- C3: analyze is a function of the text alone: at any two version numbers,
the unchanged text produces structurally identical symbol indexes, the same
labels, globals and diagnostics in the same order, while each snapshot
records its requested version. -/
theorem claim_C3 (cfg : MumpsConfig) (docLines : List (List Char)) (v1 v2 : Nat)
    (h : v1 < v2) :
    (analyze cfg docLines v1).index = (analyze cfg docLines v2).index ∧
    (analyze cfg docLines v1).version = v1 ∧ (analyze cfg docLines v2).version = v2 :=
  ⟨rfl, rfl, rfl⟩

/-- A demonstration label line: PATIENT followed by a comment. -/
def demoLine1 : List Char := patName ++ [' ', semi, ' ', 'm']

/-- A demonstration command line assigning from a deep global. -/
def demoLine2 : List Char :=
  [' ', 'S', ' ', 'X', '=', '^', 'A', '(', '1', ',', '2', ',', '3', ',', '4', ')']

/-- A small demonstration document. -/
def demoDoc : List (List Char) := [demoLine1, demoLine2]

/-- C3 witness: analyzing the demonstration document at versions one and two
yields identical indexes. -/
theorem claim_C3_witness :
    (analyze ⟨10⟩ demoDoc 1).index = (analyze ⟨10⟩ demoDoc 2).index :=
  (claim_C3 ⟨10⟩ demoDoc 1 2 (by decide)).1

/-- The argument text of the deep reference example. -/
def deepRefArg : List Char := ['^', 'A', '(', '1', ',', '2', ',', '3', ',', '4', ')']

/-- The parsed deep reference of the example. -/
def deepRef : GlobalRef := ⟨['A'], [['1'], ['2'], ['3'], ['4']], false⟩

/-- C7: the deep reference ^A(1,2,3,4) is parsed in full, all four subscript
levels, with no diagnostic; for every configured maximum depth at least one,
the index retains exactly the first maxGlobalDepth subscript levels, a prefix
of the parsed list, while the observed depth stays four; and the diagnostics
of the built index do not depend on the configured depth and are empty here. -/
theorem claim_C7 (d : Nat) (hd : 1 ≤ d) :
    extractRefs deepRefArg = [deepRef] ∧
    (mkGlobalEntry d deepRef.name deepRef.subscripts).retained = deepRef.subscripts.take d ∧
    (mkGlobalEntry d deepRef.name deepRef.subscripts).retained <+: deepRef.subscripts ∧
    (mkGlobalEntry d deepRef.name deepRef.subscripts).depth = 4 ∧
    (buildIndex ⟨d⟩ [demoLine2]).diagnostics = (buildIndex ⟨1⟩ [demoLine2]).diagnostics ∧
    (buildIndex ⟨1⟩ [demoLine2]).diagnostics = [] :=
  ⟨by decide, rfl, List.take_prefix d _, rfl, rfl, by decide⟩

/-- C7 witness: at maximum depth two the retained record is exactly the first
two subscript levels and indexing still reports no diagnostic. -/
theorem claim_C7_witness :
    extractRefs deepRefArg = [deepRef] ∧
    (mkGlobalEntry 2 deepRef.name deepRef.subscripts).retained = [['1'], ['2']] ∧
    (buildIndex ⟨2⟩ [demoLine2]).diagnostics = [] := by
  obtain ⟨h1, h2, h3, h4, h5, h6⟩ := claim_C7 2 (by decide)
  refine ⟨h1, ?_, h5.trans h6⟩
  rw [h2]
  decide

/-! ## The editor extension client, embedded from src/extension.ts -/

/-- The five file extensions of the file system watcher glob in clientOptions
(src/extension.ts line 34): m, mps, mumps, ros, int. -/
def watchedExtensions : List (List Char) :=
  [['m'], ['m', 'p', 's'], ['m', 'u', 'm', 'p', 's'], ['r', 'o', 's'], ['i', 'n', 't']]

/-- Whether the first list is a prefix of the second. -/
def startsWithL : List Char → List Char → Bool
  | [], _ => true
  | _ :: _, [] => false
  | a :: as, b :: bs => a == b && startsWithL as bs

/-- Whether suf is a suffix of l. -/
def endsWithL (suf l : List Char) : Bool := startsWithL suf.reverse l.reverse

/-- The watcher glob with its brace alternatives matches a file name exactly
when the name ends in a dot followed by one of the five extensions. -/
def watcherMatches (fileName : List Char) : Bool :=
  watchedExtensions.any (fun e => endsWithL ('.' :: e) fileName)

/-- The extension read from a reversed file name: the characters before the
first dot of the reversed name, reversed back; none when there is no dot. -/
def extFromRev : List Char → Option (List Char)
  | [] => none
  | c :: t => if c = '.' then some [] else (extFromRev t).map (fun e => e ++ [c])

/-- The extension of a file name: the part after its last dot, if any. -/
def extensionOf (fileName : List Char) : Option (List Char) :=
  extFromRev fileName.reverse

theorem startsWithL_iff (s : List Char) : ∀ l, startsWithL s l = true ↔ s <+: l := by
  induction s with
  | nil => intro l; simp [startsWithL]
  | cons a as ih =>
    intro l
    cases l with
    | nil => simp [startsWithL]
    | cons b bs => simp [startsWithL, ih bs, List.cons_prefix_cons]

theorem endsWithL_iff (suf l : List Char) : endsWithL suf l = true ↔ suf <:+ l := by
  rw [endsWithL, startsWithL_iff, List.reverse_prefix]

theorem extFromRev_append (xs rest : List Char) (hx : ∀ a ∈ xs, ¬ (a = '.')) :
    extFromRev (xs ++ '.' :: rest) = some xs.reverse := by
  induction xs with
  | nil => simp [extFromRev]
  | cons a t ih =>
    have ha := hx a (by simp)
    have ht : ∀ b ∈ t, ¬ (b = '.') := fun b hb => hx b (by simp [hb])
    simp [extFromRev, ha, ih ht]

theorem extFromRev_some (r : List Char) : ∀ e, extFromRev r = some e →
    ∃ rest, r = e.reverse ++ '.' :: rest := by
  induction r with
  | nil => intro e h; simp [extFromRev] at h
  | cons c t ih =>
    intro e h
    by_cases hc : c = '.'
    · subst hc
      simp [extFromRev] at h
      subst h
      exact ⟨t, by simp⟩
    · simp only [extFromRev, if_neg hc] at h
      rcases hmap : extFromRev t with _ | e2
      · rw [hmap] at h; simp at h
      · rw [hmap] at h
        simp at h
        obtain ⟨rest, hr⟩ := ih e2 hmap
        refine ⟨rest, ?_⟩
        rw [← h, List.reverse_append, List.reverse_singleton, hr]
        simp

theorem watched_no_dot : ∀ e ∈ watchedExtensions, ∀ a ∈ e, ¬ (a = '.') := by decide

/-- C8: file extension recognition lives in the client, not the core: the
file system watcher of clientOptions matches a file name exactly when its
extension, the part after its last dot, is one of m, mps, mumps, ros, int;
and zwr is not among the watched extensions. -/
theorem claim_C8 (fileName : List Char) :
    (watcherMatches fileName = true ↔
      ∃ e ∈ watchedExtensions, extensionOf fileName = some e) ∧
    ['z', 'w', 'r'] ∉ watchedExtensions := by
  refine ⟨⟨?_, ?_⟩, by decide⟩
  · intro h
    rw [watcherMatches, List.any_eq_true] at h
    obtain ⟨e, he, hmatch⟩ := h
    rw [endsWithL_iff] at hmatch
    obtain ⟨pre, hpre⟩ := hmatch
    refine ⟨e, he, ?_⟩
    have hnd : ∀ a ∈ e.reverse, ¬ (a = '.') := by
      intro a ha
      exact watched_no_dot e he a (List.mem_reverse.mp ha)
    rw [extensionOf, ← hpre, List.reverse_append]
    simp only [List.reverse_cons]
    rw [List.append_assoc, List.singleton_append, extFromRev_append _ _ hnd,
      List.reverse_reverse]
  · rintro ⟨e, he, hext⟩
    rw [watcherMatches, List.any_eq_true]
    refine ⟨e, he, ?_⟩
    rw [endsWithL_iff]
    obtain ⟨rest, hr⟩ := extFromRev_some fileName.reverse e hext
    refine ⟨rest.reverse, ?_⟩
    have h2 := congrArg List.reverse hr
    rw [List.reverse_reverse] at h2
    rw [h2, List.reverse_append]
    simp

/-- C8 witness: a name with extension mps is matched by the watcher, and its
extension is found among the watched ones. -/
theorem claim_C8_witness :
    ∃ e ∈ watchedExtensions, extensionOf ['a', '.', 'm', 'p', 's'] = some e :=
  ((claim_C8 ['a', '.', 'm', 'p', 's']).1).mp (by decide)

/-- The default python command of the client (src/extension.ts line 15). -/
def pythonDefault : String := "python"

/-- The empty string default of the serverPath setting (line 16). -/
def emptyString : String := ""

/-- The bundled server script path below the extension directory (line 20). -/
def bundledSuffix : String := "/server/mumps_server.py"

/-- The client identifier passed to the LanguageClient constructor. -/
def clientId : String := "mumpsLanguageServer"

/-- The client display name passed to the LanguageClient constructor. -/
def clientName : String := "MUMPS Language Server"

/-- The mumps section of the workspace configuration: the two settings the
client reads, absent when not configured. -/
structure WorkspaceConfig where
  pythonPath : Option String
  serverPath : Option String
deriving DecidableEq, Repr

/-- config.get with a default: the configured value, or the default when the
setting is absent. -/
def configGet (v : Option String) (dflt : String) : String := v.getD dflt

/-- The or operator of JavaScript on strings: the left operand unless it is
falsy, and the empty string is falsy. -/
def jsOrElse (a b : String) : String := if a = emptyString then b else a

/-- The server options built in activate: the command and arguments of the
spawned language server process. -/
structure ServerOptions where
  command : String
  args : List String
deriving DecidableEq, Repr

/-- The language client value built in activate. -/
structure LanguageClient where
  id : String
  name : String
  serverOptions : ServerOptions
deriving DecidableEq, Repr

/-- The promise returned by client.stop. -/
inductive Thenable where
  | stopped (c : LanguageClient)
deriving DecidableEq, Repr

/-- client.stop produces the stop promise of that client. -/
def LanguageClient.stop (c : LanguageClient) : Thenable := Thenable.stopped c

/-- The extension context: the installation path of the extension. -/
structure ExtensionContext where
  extensionPath : String
deriving DecidableEq, Repr

/-- activate, embedded from src/extension.ts lines 12 to 49: read the
pythonPath setting with default python, read the serverPath setting with
default empty, take the bundled server path when the custom path is falsy,
and build the language client from the resulting server options. -/
def activate (context : ExtensionContext) (config : WorkspaceConfig) : LanguageClient :=
  let pythonPath := configGet config.pythonPath pythonDefault
  let customServerPath := configGet config.serverPath emptyString
  let serverScript := jsOrElse customServerPath (context.extensionPath ++ bundledSuffix)
  { id := clientId, name := clientName,
    serverOptions := { command := pythonPath, args := [serverScript] } }

/-- deactivate, embedded from src/extension.ts lines 62 to 67: undefined when
no client was ever created, otherwise exactly the promise of client.stop. -/
def deactivate (client : Option LanguageClient) : Option Thenable :=
  match client with
  | none => none
  | some c => some c.stop

/-- C9: calling deactivate before activate has ever created a client returns
undefined and performs no action, and after activate it returns exactly the
promise produced by client.stop, so deactivation never throws on an extension
that was never activated. -/
theorem claim_C9 :
    deactivate none = none ∧
    ∀ (context : ExtensionContext) (config : WorkspaceConfig),
      deactivate (some (activate context config)) = some (activate context config).stop :=
  ⟨rfl, fun _ _ => rfl⟩

/-- C10: the launch command equals the pythonPath setting, defaulting to
python when unset; the server script equals the serverPath setting whenever
that setting is a non empty string, and otherwise equals the bundled path
below the extension directory, so any non empty custom path takes precedence
over the bundled server. -/
theorem claim_C10 (context : ExtensionContext) (config : WorkspaceConfig) :
    (activate context config).serverOptions.command = config.pythonPath.getD pythonDefault ∧
    (∀ s : String, config.serverPath = some s → s ≠ emptyString →
      (activate context config).serverOptions.args = [s]) ∧
    ((config.serverPath = none ∨ config.serverPath = some emptyString) →
      (activate context config).serverOptions.args =
        [context.extensionPath ++ bundledSuffix]) := by
  refine ⟨rfl, ?_, ?_⟩
  · intro s hs hne
    simp [activate, configGet, jsOrElse, hs, hne]
  · intro h
    rcases h with h | h <;> simp [activate, configGet, jsOrElse, h]

/-- A demonstration extension installation path. -/
def demoExtPath : String := "/ext"

/-- A demonstration custom server path. -/
def demoCustomPath : String := "/custom/server.py"

/-- C10 witness: with no pythonPath and a non empty serverPath, the command is
python and the script is the custom path; with no settings at all, the script
is the bundled path below the extension directory. -/
theorem claim_C10_witness :
    (activate ⟨demoExtPath⟩ ⟨none, some demoCustomPath⟩).serverOptions.command = pythonDefault ∧
    (activate ⟨demoExtPath⟩ ⟨none, some demoCustomPath⟩).serverOptions.args = [demoCustomPath] ∧
    (activate ⟨demoExtPath⟩ ⟨none, none⟩).serverOptions.args = [demoExtPath ++ bundledSuffix] :=
  ⟨(claim_C10 ⟨demoExtPath⟩ ⟨none, some demoCustomPath⟩).1,
   (claim_C10 ⟨demoExtPath⟩ ⟨none, some demoCustomPath⟩).2.1 demoCustomPath rfl (by decide),
   (claim_C10 ⟨demoExtPath⟩ ⟨none, none⟩).2.2 (Or.inl rfl)⟩

end Mumps
